import Mathlib

/-!
Verification of the energy-statistics clustering repository.

The experiment drivers of the repository (`experiment1.py`, `experiment3.py`),
the Bayes-error estimator (`bayes.py`) and a result table are the source
files available; the core clustering engine (`energy/eclust.py` and
friends) is referenced by the experiment code but its source is not
present, so the engine is modelled from the specification document and
the experiment-layer functions are embedded from their source.

Numbers are embedded as exact rationals (`ℚ`); lists of rationals stand
for numpy vectors, lists of lists for matrices.
-/

namespace EnergyClustering


/-! ## Kernel matrix builder (spec §4.1) -/

/-- Modelled from the spec: the Kernel Matrix Builder of §4.1 (the code of
`eclust.kernel_matrix` is not in the available sources).  Given a point
set `P` of size `n` and a kernel/distance function `φ`, it returns the
`n×n` matrix with entry `(i,j)` equal to `φ Pᵢ Pⱼ`. -/
def kernel_matrix {α : Type} (φ : α → α → ℚ) (P : List α) : List (List ℚ) :=
  P.map (fun x => P.map (fun y => φ x y))

/-- The 1-D Euclidean distance kernel `rho = lambda x, y: norm(x - y)`
of the experiment code, specialised to one-dimensional points. -/
def rho1D (x y : ℚ) : ℚ := |x - y|

/-! ## Energy statistic evaluator (spec §4.3) -/

/-- Modelled from the spec: the within/between kernel sum of the Energy
Statistic Evaluator (§4.3), `Σ_{i∈C_a} Σ_{j∈C_b} K[i,j]` for the partition
given by the label list `z` (code of `eclust` is not in the available
sources). -/
def clusterSum (K : ℕ → ℕ → ℚ) (z : List ℕ) (a b : ℕ) : ℚ :=
  (Finset.range z.length).sum fun i =>
    (Finset.range z.length).sum fun j =>
      if z.getD i 0 = a ∧ z.getD j 0 = b then K i j else 0

/-- Modelled from the spec: `mean(K[i,j] for i∈C_a, j∈C_b)` (§4.3). -/
def meanK (K : ℕ → ℕ → ℚ) (z : List ℕ) (a b : ℕ) : ℚ :=
  clusterSum K z a b / ((z.count a : ℚ) * (z.count b : ℚ))

/-- Modelled from the spec: the contribution of the cluster pair `(a,b)`
to the energy, `2·mean(a,b) − mean(a,a) − mean(b,b)` (§4.3). -/
def tTerm (K : ℕ → ℕ → ℚ) (z : List ℕ) (a b : ℕ) : ℚ :=
  2 * meanK K z a b - meanK K z a a - meanK K z b b

/-- Modelled from the spec: the total energy
`E = Σ_{a<b} [2·mean(a,b) − mean(a,a) − mean(b,b)]` (§4.3). -/
def energy (K : ℕ → ℕ → ℚ) (z : List ℕ) (k : ℕ) : ℚ :=
  (Finset.range k).sum fun a =>
    (Finset.range k).sum fun b => if a < b then tTerm K z a b else 0

/-! ## Hartigan optimizer (spec §4.4) -/

/-- Modelled from the spec: the incremental delta of the Energy Statistic
Evaluator (§4.3) — the change in `E` caused by moving point `i` from its
current cluster to cluster `c` (the incremental-bookkeeping code of
`eclust` is not in the available sources; the spec defines the delta as
the change in `E`). -/
def delta (K : ℕ → ℕ → ℚ) (k : ℕ) (z : List ℕ) (i c : ℕ) : ℚ :=
  energy K (z.set i c) k - energy K z k

/-- Modelled from the spec: the candidate cluster with the best delta for
point `i` in the Hartigan scan (§4.4); the fold starts at the current cluster of the point, its own
cluster (delta `0`), so the result beats it only with a strictly positive
delta. -/
def bestCand (K : ℕ → ℕ → ℚ) (k : ℕ) (z : List ℕ) (i : ℕ) : ℕ :=
  ((List.range k).filter fun c => decide (c ≠ z.getD i 0)).foldl
    (fun b c => if delta K k z i b < delta K k z i c then c else b)
    (z.getD i 0)

/-- Modelled from the spec: one Hartigan move attempt (§4.4): if the best
delta is strictly positive and the move would not empty the
current cluster, apply it; otherwise leave the point. -/
def hartiganPointStep (K : ℕ → ℕ → ℚ) (k : ℕ) (z : List ℕ) (i : ℕ) :
    List ℕ :=
  if 0 < delta K k z i (bestCand K k z i) ∧ 2 ≤ z.count (z.getD i 0)
  then z.set i (bestCand K k z i) else z

/-- Modelled from the spec: a full Hartigan scan over all points in a
fixed order (§4.4). -/
def hartiganPass (K : ℕ → ℕ → ℚ) (k : ℕ) (z : List ℕ) : List ℕ :=
  (List.range z.length).foldl (hartiganPointStep K k) z

/-- Modelled from the spec: repeated Hartigan scans until a full pass
accepts no move (CONVERGED) or the pass budget is exhausted (§4.4). -/
def hartiganRun (K : ℕ → ℕ → ℚ) (k : ℕ) : ℕ → List ℕ → List ℕ
  | 0, z => z
  | fuel + 1, z =>
    if hartiganPass K k z = z then z
    else hartiganRun K k fuel (hartiganPass K k z)

/-- The all-zero kernel, used to instantiate witnesses. -/
def Kzero : ℕ → ℕ → ℚ := fun _ _ => 0

/-- The symmetric zero-diagonal kernel matrix with off-diagonal value
`−1`, on which converged-scan local optimality fails for emptying
moves. -/
def Kneg : ℕ → ℕ → ℚ := fun i j => if i = j then 0 else -1

/-! ## Clustering driver (spec §4.6, §7) -/

/-- Modelled from the spec: the error taxonomy of §7 together with the
driver-level `EmptyInput` condition of §4.6. -/
inductive ClusterError where
  | invalidK
  | emptyInput
  | dimensionMismatch
  | numericalDegeneracy
  | emptyClusterRejected
  | nonConvergence
deriving DecidableEq

/-- Modelled from the spec: the dimensionality check of the Kernel Matrix
Builder (§4.1) — all points must share one dimension `d`. -/
def dims_consistent (points : List (List ℚ)) : Bool :=
  points.all fun p => p.length == (points.headD []).length

/-- Modelled from the spec: one independent optimization of the driver
(§4.6): initialize a partition for restart index `r`, optimize it, and
report the final labeling with its energy value.  The optimizer is a
parameter so that the driver covers both the Hartigan and the Lloyd
kind. -/
def runResult (K : ℕ → ℕ → ℚ) (k : ℕ) (opt : List ℕ → List ℕ)
    (init : ℕ → List ℕ) (r : ℕ) : List ℕ × ℚ :=
  (opt (init r), energy K (opt (init r)) k)

/-- Modelled from the spec: best-run selection of the driver (§4.6, §9):
the run with the highest final energy, the first-found one on ties. -/
def pickBest : List (List ℕ × ℚ) → List ℕ × ℚ
  | [] => ([], 0)
  | h :: t => t.foldl (fun b r => if b.2 < r.2 then r else b) h

/-- Modelled from the spec: the restart loop of the driver (§4.6):
`run_times` independent optimizations, keeping the best run. -/
def clusterRuns (K : ℕ → ℕ → ℚ) (k : ℕ) (opt : List ℕ → List ℕ)
    (init : ℕ → List ℕ) (run_times : ℕ) : List ℕ × ℚ :=
  pickBest ((List.range run_times).map (runResult K k opt init))

/-- Modelled from the spec: the public driver contract of §4.6
`cluster(points, k, kernel_fn, init_strategy, optimizer_kind, run_times,
max_iter, seed)`: validate the input, then run the restart loop on the
kernel matrix built from `φ`.  The seeded initialization strategy and the
optimizer (with its iteration budget) are explicit function
parameters. -/
def cluster (points : List (List ℚ)) (k : ℕ) (φ : List ℚ → List ℚ → ℚ)
    (init : ℕ → ℕ → List ℕ) (opt : List ℕ → List ℕ) (run_times seed : ℕ) :
    Except ClusterError (List ℕ × ℚ) :=
  if points.length = 0 then Except.error ClusterError.emptyInput
  else if k < 2 ∨ points.length < k then Except.error ClusterError.invalidK
  else if dims_consistent points then
    Except.ok (clusterRuns (fun i j => φ (points.getD i []) (points.getD j []))
      k opt (init seed) run_times)
  else Except.error ClusterError.dimensionMismatch

/-! ## Bayes-error estimator (`kgroups_code/bayes.py`) -/

/-- One trial of `bayes_univariate_normal` (`bayes.py`, lines 24–36): the
drawn samples `x1, x2` are parameters (the random draws are external),
and `f` stands for the density difference
`stats.norm.pdf(x, mu1, sigma1) - stats.norm.pdf(x, mu2, sigma2)`;
`error1` counts the points of `x1` where the difference is `≤ 0`,
`error2` the points of `x2` where it is `≥ 0`, and the trial error is
`p*error1/n1 + q*error2/n2` with `q = 1 - p`. -/
def trial_error (p : ℚ) (f : ℚ → ℚ) (x1 x2 : List ℚ) : ℚ :=
  p * ((x1.countP fun x => decide (f x ≤ 0) : ℕ) : ℚ) / ((x1.length : ℕ) : ℚ)
    + (1 - p) * ((x2.countP fun x => decide (0 ≤ f x) : ℕ) : ℚ)
      / ((x2.length : ℕ) : ℚ)

/-- Embedding of `bayes_univariate_normal` (`bayes.py`, lines 20–37): the mean of the
per-trial errors over `num_times` trials, subtracted from 1; the list
`trials` carries the per-trial sample draws. -/
def bayes_univariate_normal (p : ℚ) (f : ℚ → ℚ)
    (trials : List (List ℚ × List ℚ)) : ℚ :=
  1 - (trials.map fun t => trial_error p f t.1 t.2).sum
    / ((trials.length : ℕ) : ℚ)

/-! ## Experiment 3 (`code/experiment3.py`) -/

/-- Python runtime error kinds relevant to `experiment3.py`. -/
inductive PyError where
  | nameError (n : String)
deriving DecidableEq

/-- The names bound at module level in `experiment3.py`: the imports of
lines 6–13 (`numpy as np`, `multiprocessing as mp`, `energy.data as
data`, `energy.eclust as eclust`, `energy.initialization as
initialization`, `run_clustering`, `plot`) and the four module-level
functions.  The name `ke` is not among them. -/
def experiment3_defined_names : List String :=
  ["np", "mp", "data", "eclust", "initialization", "run_clustering", "plot",
   "gauss_dimensions_pi", "make_plot", "gen_data", "worker"]

/-- Python name resolution against the module environment of
`experiment3.py`: an unbound name raises `NameError`. -/
def lookup_name (x : String) : Except PyError Unit :=
  if x ∈ experiment3_defined_names then Except.ok ()
  else Except.error (PyError.nameError x)

/-- Embedding of `gauss_dimensions_pi` (`experiment3.py`, lines 15–49): allocate the
zero table, then for each `p` in `num_points` and each of
`num_experiments` repetitions draw a sample (external
`data.multivariate_normal`, a parameter here), evaluate
`G = ke.kernel_matrix(X, rho)` — which resolves the module-level name
`ke` — and only then store the row
`[p, energy_hartigan, energy_lloyd, kmeans, gmm]` (the four clustering
scores are external calls, a parameter here). -/
def gauss_dimensions_pi (sample : ℕ → ℕ → List (List ℚ) × List ℕ)
    (results : ℕ → ℕ → List ℚ) (num_points : List ℕ)
    (num_experiments : ℕ) : Except PyError (List (List ℚ)) := do
  let init_table := List.replicate (num_experiments * num_points.length)
    (List.replicate 5 (0 : ℚ))
  let st ← num_points.foldlM (fun (st : List (List ℚ) × ℕ) p =>
      (List.range num_experiments).foldlM (fun st i => do
        let _ := sample p i
        let _ ← lookup_name "ke"
        pure (st.1.set st.2 ((p : ℚ) :: results p i), st.2 + 1)) st)
    (init_table, 0)
  pure st.1

/-! ## Experiment 1 (`code/experiment1.py`) -/

/-- The `ValueError` message of `Clustering1D.get_sample`
(`experiment1.py`, line 41). -/
def valueErrorMsg : String := "Clustering 1D, unknown distribution to sample."

/-- Embedding of `Clustering1D.get_sample` (`experiment1.py`, lines 34–42): the
multinomial split and the two samplers are external (`numpy`,
`energy.data`), so the drawn `(X, z)` pairs are parameters; the method
dispatches on the `distr` string attribute of the instance and raises
`ValueError` on anything other than `normal` and `lognormal`. -/
def get_sample (distr : String) (normal_sample lognormal_sample : List ℚ × List ℕ) :
    Except String (List ℚ × List ℕ) :=
  if distr = "normal" then Except.ok normal_sample
  else if distr = "lognormal" then Except.ok lognormal_sample
  else Except.error valueErrorMsg

lemma getD_map_of_lt {α β : Type} (f : α → β) (l : List α) (i : ℕ)
    (h : i < l.length) (d : α) (d' : β) :
    (l.map f).getD i d' = f (l.getD i d) := by
  rw [List.getD_eq_getElem?_getD, List.getD_eq_getElem?_getD, List.getElem?_map,
    List.getElem?_eq_getElem h]
  rfl

lemma kernel_matrix_length {α : Type} (φ : α → α → ℚ) (P : List α) :
    (kernel_matrix φ P).length = P.length := by
  simp [kernel_matrix]

lemma kernel_matrix_row_length {α : Type} (φ : α → α → ℚ) (P : List α)
    (i : ℕ) (hi : i < P.length) :
    ((kernel_matrix φ P).getD i []).length = P.length := by
  rw [kernel_matrix, getD_map_of_lt _ _ _ hi (P.getD i (P.get ⟨i, hi⟩))]
  simp

lemma kernel_matrix_entry {α : Type} (φ : α → α → ℚ) (P : List α)
    (i j : ℕ) (hi : i < P.length) (hj : j < P.length) :
    ((kernel_matrix φ P).getD i []).getD j 0
      = φ (P.get ⟨i, hi⟩) (P.get ⟨j, hj⟩) := by
  rw [kernel_matrix, getD_map_of_lt _ _ _ hi (P.get ⟨i, hi⟩),
    getD_map_of_lt _ _ _ hj (P.get ⟨j, hj⟩)]
  simp [List.getD_eq_getElem?_getD, List.getElem?_eq_getElem hi,
    List.getElem?_eq_getElem hj]

lemma kernel_matrix_colinear :
    kernel_matrix rho1D [0, 1, 2] = [[0, 1, 2], [1, 0, 1], [2, 1, 0]] := by
  norm_num [kernel_matrix, rho1D, abs_of_nonneg, abs_of_nonpos]

/-- C3: the Kernel Matrix Builder returns an `n×n` matrix with
`K[i][j] = φ(point_i, point_j)`; `K` is symmetric when `φ` is, its
diagonal vanishes when `φ` is a distance, and on the three colinear 1-D
points `0, 1, 2` with the Euclidean distance kernel it yields
`[[0,1,2],[1,0,1],[2,1,0]]`. -/
theorem C3_kernel_matrix_correct {α : Type} (φ : α → α → ℚ) (P : List α) :
    (kernel_matrix φ P).length = P.length ∧
    (∀ i, i < P.length → ((kernel_matrix φ P).getD i []).length = P.length) ∧
    (∀ i j (hi : i < P.length) (hj : j < P.length),
      ((kernel_matrix φ P).getD i []).getD j 0
        = φ (P.get ⟨i, hi⟩) (P.get ⟨j, hj⟩)) ∧
    ((∀ x y, φ x y = φ y x) → ∀ i j, i < P.length → j < P.length →
      ((kernel_matrix φ P).getD i []).getD j 0
        = ((kernel_matrix φ P).getD j []).getD i 0) ∧
    ((∀ x, φ x x = 0) → ∀ i, i < P.length →
      ((kernel_matrix φ P).getD i []).getD i 0 = 0) ∧
    kernel_matrix rho1D [0, 1, 2] = [[0, 1, 2], [1, 0, 1], [2, 1, 0]] := by
  refine ⟨kernel_matrix_length φ P, fun i hi => kernel_matrix_row_length φ P i hi,
    fun i j hi hj => kernel_matrix_entry φ P i j hi hj, ?_, ?_,
    kernel_matrix_colinear⟩
  · intro hsym i j hi hj
    rw [kernel_matrix_entry φ P i j hi hj, kernel_matrix_entry φ P j i hj hi,
      hsym]
  · intro hdiag i hi
    rw [kernel_matrix_entry φ P i i hi hi, hdiag]

/-- Witness for C3 at the concrete Scenario C input. -/
theorem C3_kernel_matrix_correct_witness :
    (∀ x y : ℚ, rho1D x y = rho1D y x) ∧ (∀ x : ℚ, rho1D x x = 0) ∧
    (0 : ℕ) < 3 ∧ (1 : ℕ) < 3 ∧
    ((kernel_matrix rho1D [0, 1, 2]).getD 0 []).getD 1 0
      = ((kernel_matrix rho1D [0, 1, 2]).getD 1 []).getD 0 0 ∧
    ((kernel_matrix rho1D [0, 1, 2]).getD 0 []).getD 0 0 = 0 := by
  have hsym : ∀ x y : ℚ, rho1D x y = rho1D y x := fun x y => abs_sub_comm x y
  have hdiag : ∀ x : ℚ, rho1D x x = 0 := by intro x; simp [rho1D]
  exact ⟨hsym, hdiag, by norm_num, by norm_num,
    (C3_kernel_matrix_correct rho1D [0, 1, 2]).2.2.2.1 hsym 0 1 (by norm_num)
      (by norm_num),
    (C3_kernel_matrix_correct rho1D [0, 1, 2]).2.2.2.2.1 hdiag 0 (by norm_num)⟩

lemma tTerm_diag (K : ℕ → ℕ → ℚ) (z : List ℕ) (a : ℕ) :
    tTerm K z a a = 0 := by
  simp [tTerm]
  ring

lemma clusterSum_comm (K : ℕ → ℕ → ℚ) (hK : ∀ i j, K i j = K j i)
    (z : List ℕ) (a b : ℕ) : clusterSum K z a b = clusterSum K z b a := by
  rw [clusterSum, clusterSum, Finset.sum_comm]
  refine Finset.sum_congr rfl fun j _ => Finset.sum_congr rfl fun i _ => ?_
  rw [hK i j]
  exact if_congr (and_comm) rfl rfl

lemma tTerm_comm (K : ℕ → ℕ → ℚ) (hK : ∀ i j, K i j = K j i)
    (z : List ℕ) (a b : ℕ) : tTerm K z a b = tTerm K z b a := by
  unfold tTerm meanK
  rw [clusterSum_comm K hK z a b, mul_comm ((z.count a : ℚ)) ((z.count b : ℚ))]
  ring

lemma sum_tTerm_eq_two_energy (K : ℕ → ℕ → ℚ) (hK : ∀ i j, K i j = K j i)
    (z : List ℕ) (k : ℕ) :
    ((Finset.range k).sum fun a => (Finset.range k).sum fun b => tTerm K z a b)
      = 2 * energy K z k := by
  have hsplit : ∀ a b : ℕ, tTerm K z a b =
      (if a < b then tTerm K z a b else 0) +
      ((if b < a then tTerm K z a b else 0) +
       (if a = b then tTerm K z a b else 0)) := by
    intro a b
    rcases lt_trichotomy a b with h | h | h
    · simp [h, lt_asymm h, ne_of_lt h]
    · simp [h, lt_irrefl, tTerm_diag]
    · simp [h, lt_asymm h, (ne_of_lt h).symm]
  calc ((Finset.range k).sum fun a => (Finset.range k).sum fun b => tTerm K z a b)
      = ((Finset.range k).sum fun a => (Finset.range k).sum fun b =>
          if a < b then tTerm K z a b else 0)
        + (((Finset.range k).sum fun a => (Finset.range k).sum fun b =>
            if b < a then tTerm K z a b else 0)
          + ((Finset.range k).sum fun a => (Finset.range k).sum fun b =>
              if a = b then tTerm K z a b else 0)) := by
        rw [← Finset.sum_add_distrib, ← Finset.sum_add_distrib]
        refine Finset.sum_congr rfl fun a _ => ?_
        rw [← Finset.sum_add_distrib, ← Finset.sum_add_distrib]
        exact Finset.sum_congr rfl fun b _ => hsplit a b
    _ = energy K z k + (energy K z k + 0) := by
        congr 1
        · congr 1
          · rw [Finset.sum_comm, energy]
            refine Finset.sum_congr rfl fun a _ => Finset.sum_congr rfl fun b _ => ?_
            by_cases h : a < b <;> simp [h, tTerm_comm K hK]
          · calc ((Finset.range k).sum fun a => (Finset.range k).sum fun b =>
                  if a = b then tTerm K z a b else 0)
                = (Finset.range k).sum fun a =>
                    if a ∈ Finset.range k then tTerm K z a a else 0 :=
                  Finset.sum_congr rfl fun a _ =>
                    Finset.sum_ite_eq (Finset.range k) a (fun b => tTerm K z a b)
              _ = 0 := by simp [tTerm_diag]
    _ = 2 * energy K z k := by ring

lemma count_map_perm (σ : Equiv.Perm ℕ) (z : List ℕ) (a : ℕ) :
    (z.map σ).count a = z.count (σ.symm a) := by
  conv_lhs => rw [← Equiv.apply_symm_apply σ a]
  exact List.count_map_of_injective z σ σ.injective (σ.symm a)

lemma clusterSum_map_perm (K : ℕ → ℕ → ℚ) (σ : Equiv.Perm ℕ) (z : List ℕ)
    (a b : ℕ) : clusterSum K (z.map σ) a b
      = clusterSum K z (σ.symm a) (σ.symm b) := by
  rw [clusterSum, clusterSum, List.length_map]
  refine Finset.sum_congr rfl fun i hi => Finset.sum_congr rfl fun j hj => ?_
  rw [Finset.mem_range] at hi hj
  rw [getD_map_of_lt (⇑σ) z i hi 0 0, getD_map_of_lt (⇑σ) z j hj 0 0]
  exact if_congr (and_congr (σ.apply_eq_iff_eq_symm_apply)
    (σ.apply_eq_iff_eq_symm_apply)) rfl rfl

lemma tTerm_map_perm (K : ℕ → ℕ → ℚ) (σ : Equiv.Perm ℕ) (z : List ℕ)
    (a b : ℕ) : tTerm K (z.map σ) a b = tTerm K z (σ.symm a) (σ.symm b) := by
  unfold tTerm meanK
  rw [clusterSum_map_perm, clusterSum_map_perm, clusterSum_map_perm,
    count_map_perm, count_map_perm]

lemma sum_range_perm_symm (k : ℕ) (σ : Equiv.Perm ℕ)
    (hσ : ∀ a, a < k ↔ σ a < k) (f : ℕ → ℚ) :
    ((Finset.range k).sum fun a => f (σ.symm a)) = (Finset.range k).sum f := by
  refine Finset.sum_nbij' (fun a => σ.symm a) (fun a => σ a) ?_ ?_ ?_ ?_ ?_
  · intro a ha
    rw [Finset.mem_range] at ha ⊢
    exact (hσ (σ.symm a)).mpr (by rwa [Equiv.apply_symm_apply])
  · intro a ha
    rw [Finset.mem_range] at ha ⊢
    exact (hσ a).mp ha
  · intro a _
    exact Equiv.apply_symm_apply σ a
  · intro a _
    exact Equiv.symm_apply_apply σ a
  · intro a _
    rfl

/-- C4: relabelling the clusters of a fixed partition by any permutation
of the cluster ids leaves the energy statistic `E` unchanged (the kernel
matrix is symmetric by the data model of §3). -/
theorem C4_energy_label_permutation_invariant (K : ℕ → ℕ → ℚ)
    (hK : ∀ i j, K i j = K j i) (z : List ℕ) (k : ℕ) (σ : Equiv.Perm ℕ)
    (hσ : ∀ a, a < k ↔ σ a < k) :
    energy K (z.map σ) k = energy K z k := by
  have h2 : (2 : ℚ) * energy K (z.map σ) k = 2 * energy K z k := by
    rw [← sum_tTerm_eq_two_energy K hK (z.map σ) k,
      ← sum_tTerm_eq_two_energy K hK z k]
    calc ((Finset.range k).sum fun a => (Finset.range k).sum fun b =>
          tTerm K (z.map σ) a b)
        = (Finset.range k).sum fun a => (Finset.range k).sum fun b =>
            tTerm K z (σ.symm a) (σ.symm b) := by
          exact Finset.sum_congr rfl fun a _ => Finset.sum_congr rfl fun b _ =>
            tTerm_map_perm K σ z a b
      _ = (Finset.range k).sum fun a => (Finset.range k).sum fun b =>
            tTerm K z a (σ.symm b) := by
          exact sum_range_perm_symm k σ hσ
            (fun a => (Finset.range k).sum fun b => tTerm K z a (σ.symm b))
      _ = (Finset.range k).sum fun a => (Finset.range k).sum fun b =>
            tTerm K z a b := by
          exact Finset.sum_congr rfl fun a _ =>
            sum_range_perm_symm k σ hσ (fun b => tTerm K z a b)
  exact mul_left_cancel₀ (two_ne_zero) h2

/-- Witness for C4: swapping the two cluster ids of the partition
`[0, 1, 0]` under the kernel `K i j = i + j`. -/
theorem C4_energy_label_permutation_invariant_witness :
    (∀ i j : ℕ, ((i + j : ℕ) : ℚ) = ((j + i : ℕ) : ℚ)) ∧
    (∀ a : ℕ, a < 2 ↔ Equiv.swap 0 1 a < 2) ∧
    energy (fun i j => ((i + j : ℕ) : ℚ))
        ([0, 1, 0].map (Equiv.swap 0 1)) 2
      = energy (fun i j => ((i + j : ℕ) : ℚ)) [0, 1, 0] 2 := by
  have hK : ∀ i j : ℕ, ((i + j : ℕ) : ℚ) = ((j + i : ℕ) : ℚ) := by
    intro i j
    rw [Nat.add_comm]
  have hσ : ∀ a : ℕ, a < 2 ↔ Equiv.swap 0 1 a < 2 := by
    intro a
    match a with
    | 0 => simp [Equiv.swap_apply_def]
    | 1 => simp [Equiv.swap_apply_def]
    | (n + 2) => simp [Equiv.swap_apply_def]
  exact ⟨hK, hσ, C4_energy_label_permutation_invariant
    (fun i j => ((i + j : ℕ) : ℚ)) hK [0, 1, 0] 2 (Equiv.swap 0 1) hσ⟩

lemma foldl_pick_ge_init {α : Type} (f : α → ℚ) (l : List α) :
    ∀ a : α, f a ≤ f (l.foldl (fun b c => if f b < f c then c else b) a) := by
  induction l with
  | nil => intro a; exact le_refl _
  | cons c t ih =>
    intro a
    rw [List.foldl_cons]
    refine le_trans ?_ (ih _)
    by_cases h : f a < f c
    · rw [if_pos h]; exact le_of_lt h
    · rw [if_neg h]

lemma foldl_pick_ge_mem {α : Type} (f : α → ℚ) (l : List α) :
    ∀ (a x : α), x ∈ l →
      f x ≤ f (l.foldl (fun b c => if f b < f c then c else b) a) := by
  induction l with
  | nil => intro a x hx; simp at hx
  | cons c t ih =>
    intro a x hx
    rw [List.foldl_cons]
    rcases List.mem_cons.mp hx with h | h
    · subst h
      refine le_trans ?_ (foldl_pick_ge_init f t _)
      by_cases h' : f a < f x
      · rw [if_pos h']
      · rw [if_neg h']
        exact le_of_not_lt h'
    · exact ih _ x h

lemma foldl_pick_mem {α : Type} (f : α → ℚ) (l : List α) :
    ∀ a : α, l.foldl (fun b c => if f b < f c then c else b) a ∈ a :: l := by
  induction l with
  | nil => intro a; simp
  | cons c t ih =>
    intro a
    rw [List.foldl_cons]
    rcases List.mem_cons.mp (ih (if f a < f c then c else a)) with h | h
    · rw [h]
      by_cases h' : f a < f c
      · rw [if_pos h']
        exact List.mem_cons_of_mem _ (List.mem_cons_self _ _)
      · rw [if_neg h']
        exact List.mem_cons_self _ _
    · exact List.mem_cons_of_mem _ (List.mem_cons_of_mem _ h)

lemma count_le_count_set_add_one (z : List ℕ) :
    ∀ i c x : ℕ, z.count x ≤ (z.set i c).count x + 1 := by
  induction z with
  | nil => intro i c x; simp
  | cons a t ih =>
    intro i c x
    match i with
    | 0 =>
      simp only [List.set, List.count_cons]
      split_ifs <;> omega
    | n + 1 =>
      simp only [List.set, List.count_cons]
      have := ih n c x
      split_ifs <;> omega

lemma count_set_ge_of_getD_ne (z : List ℕ) :
    ∀ i c x : ℕ, z.getD i 0 ≠ x → z.count x ≤ (z.set i c).count x := by
  induction z with
  | nil => intro i c x _; simp
  | cons a t ih =>
    intro i c x hne
    match i with
    | 0 =>
      simp only [List.getD_cons_zero] at hne
      simp only [List.set, List.count_cons, beq_iff_eq]
      split_ifs <;> omega
    | n + 1 =>
      simp only [List.getD_cons_succ] at hne
      simp only [List.set, List.count_cons]
      have := ih n c x hne
      split_ifs <;> omega

lemma set_getD_self (z : List ℕ) :
    ∀ i : ℕ, i < z.length → z.set i (z.getD i 0) = z := by
  induction z with
  | nil => intro i hi; simp at hi
  | cons a t ih =>
    intro i hi
    match i with
    | 0 => simp
    | n + 1 =>
      simp only [List.getD_cons_succ, List.set]
      rw [ih n (by simpa using hi)]

lemma energy_le_pointStep (K : ℕ → ℕ → ℚ) (k : ℕ) (z : List ℕ) (i : ℕ) :
    energy K z k ≤ energy K (hartiganPointStep K k z i) k := by
  unfold hartiganPointStep
  split_ifs with h
  · have h1 := h.1
    unfold delta at h1
    linarith
  · exact le_refl _

lemma energy_lt_pointStep_of_ne (K : ℕ → ℕ → ℚ) (k : ℕ) (z : List ℕ) (i : ℕ)
    (h : hartiganPointStep K k z i ≠ z) :
    energy K z k < energy K (hartiganPointStep K k z i) k := by
  unfold hartiganPointStep at h ⊢
  split_ifs at h ⊢ with hc
  · have h1 := hc.1
    unfold delta at h1
    linarith
  · exact absurd rfl h

lemma energy_le_foldl (K : ℕ → ℕ → ℚ) (k : ℕ) (l : List ℕ) :
    ∀ z : List ℕ, energy K z k ≤ energy K (l.foldl (hartiganPointStep K k) z) k := by
  induction l with
  | nil => intro z; exact le_refl _
  | cons i t ih =>
    intro z
    rw [List.foldl_cons]
    exact le_trans (energy_le_pointStep K k z i) (ih _)

lemma energy_le_pass (K : ℕ → ℕ → ℚ) (k : ℕ) (z : List ℕ) :
    energy K z k ≤ energy K (hartiganPass K k z) k :=
  energy_le_foldl K k (List.range z.length) z

lemma energy_le_run (K : ℕ → ℕ → ℚ) (k : ℕ) (fuel : ℕ) :
    ∀ z : List ℕ, energy K z k ≤ energy K (hartiganRun K k fuel z) k := by
  induction fuel with
  | zero => intro z; exact le_refl _
  | succ n ih =>
    intro z
    rw [hartiganRun]
    split_ifs with h
    · exact le_refl _
    · exact le_trans (energy_le_pass K k z) (ih _)

lemma foldl_fix_pointwise (K : ℕ → ℕ → ℚ) (k : ℕ) (l : List ℕ) (z : List ℕ)
    (hfix : l.foldl (hartiganPointStep K k) z = z) :
    ∀ i ∈ l, hartiganPointStep K k z i = z := by
  induction l with
  | nil => intro i hi; simp at hi
  | cons j t ih =>
    rw [List.foldl_cons] at hfix
    by_cases h : hartiganPointStep K k z j = z
    · intro i hi
      rcases List.mem_cons.mp hi with rfl | hi'
      · exact h
      · exact ih (by rwa [h] at hfix) i hi'
    · exfalso
      have h1 := energy_lt_pointStep_of_ne K k z j h
      have h2 := energy_le_foldl K k t (hartiganPointStep K k z j)
      rw [hfix] at h2
      exact absurd (lt_of_lt_of_le h1 h2) (lt_irrefl _)

lemma pass_fix_local_opt (K : ℕ → ℕ → ℚ) (k : ℕ) (z : List ℕ)
    (hfix : hartiganPass K k z = z) (i c : ℕ) (hi : i < z.length) (hc : c < k)
    (hcnt : 2 ≤ z.count (z.getD i 0)) :
    energy K (z.set i c) k ≤ energy K z k := by
  by_cases hcur : c = z.getD i 0
  · rw [hcur, set_getD_self z i hi]
  · have hstep : hartiganPointStep K k z i = z :=
      foldl_fix_pointwise K k (List.range z.length) z hfix i (List.mem_range.mpr hi)
    have hbest0 : ¬ (0 < delta K k z i (bestCand K k z i)
        ∧ 2 ≤ z.count (z.getD i 0)) := by
      intro hcond
      have happ : hartiganPointStep K k z i = z.set i (bestCand K k z i) := by
        unfold hartiganPointStep
        rw [if_pos hcond]
      have heq : z.set i (bestCand K k z i) = z := by rw [← happ, hstep]
      have hd0 : delta K k z i (bestCand K k z i) = 0 := by
        unfold delta
        rw [heq]
        ring
      rw [hd0] at hcond
      exact lt_irrefl 0 hcond.1
    have hdle : delta K k z i (bestCand K k z i) ≤ 0 :=
      le_of_not_lt (fun hlt => hbest0 ⟨hlt, hcnt⟩)
    have hmem : c ∈ (List.range k).filter fun c => decide (c ≠ z.getD i 0) := by
      rw [List.mem_filter]
      exact ⟨List.mem_range.mpr hc, by simpa using hcur⟩
    have hcle : delta K k z i c ≤ delta K k z i (bestCand K k z i) :=
      foldl_pick_ge_mem (delta K k z i) _ _ c hmem
    have hc0 : delta K k z i c ≤ 0 := le_trans hcle hdle
    unfold delta at hc0
    linarith

lemma clusterSum_of_zero (K : ℕ → ℕ → ℚ) (h : ∀ i j, K i j = 0)
    (z : List ℕ) (a b : ℕ) : clusterSum K z a b = 0 := by
  simp [clusterSum, h]

lemma energy_of_zero (K : ℕ → ℕ → ℚ) (h : ∀ i j, K i j = 0)
    (z : List ℕ) (k : ℕ) : energy K z k = 0 := by
  simp [energy, tTerm, meanK, clusterSum_of_zero K h]

lemma pointStep_of_zero (K : ℕ → ℕ → ℚ) (h : ∀ i j, K i j = 0)
    (k : ℕ) (z : List ℕ) (i : ℕ) : hartiganPointStep K k z i = z := by
  unfold hartiganPointStep
  rw [if_neg]
  intro hcond
  have h1 := hcond.1
  unfold delta at h1
  rw [energy_of_zero K h, energy_of_zero K h] at h1
  simp at h1

lemma pass_of_zero (K : ℕ → ℕ → ℚ) (h : ∀ i j, K i j = 0)
    (k : ℕ) (z : List ℕ) : hartiganPass K k z = z := by
  unfold hartiganPass
  generalize List.range z.length = l
  induction l generalizing z with
  | nil => rfl
  | cons i t ih =>
    rw [List.foldl_cons, pointStep_of_zero K h]
    exact ih z

lemma run_of_zero (K : ℕ → ℕ → ℚ) (h : ∀ i j, K i j = 0)
    (k fuel : ℕ) (z : List ℕ) : hartiganRun K k fuel z = z := by
  cases fuel with
  | zero => rfl
  | succ n =>
    rw [hartiganRun, if_pos (pass_of_zero K h k z)]

/-- C1 (amended): along a Hartigan run the energy `E` never decreases —
across each single-point move attempt, and hence across every pass of
every run — and once a full scan accepts zero moves, no single-point
relocation *that leaves the current cluster of the moved point non-empty* can
strictly increase `E`. -/
theorem C1_hartigan_monotone_local_opt (K : ℕ → ℕ → ℚ) (k : ℕ) (z : List ℕ) :
    (∀ i, energy K z k ≤ energy K (hartiganPointStep K k z i) k) ∧
    (∀ fuel, energy K z k ≤ energy K (hartiganRun K k fuel z) k) ∧
    (hartiganPass K k z = z →
      ∀ i c, i < z.length → c < k → 2 ≤ z.count (z.getD i 0) →
        energy K (z.set i c) k ≤ energy K z k) :=
  ⟨fun i => energy_le_pointStep K k z i,
   fun fuel => energy_le_run K k fuel z,
   fun hfix i c hi hc hcnt => pass_fix_local_opt K k z hfix i c hi hc hcnt⟩

lemma count_01_0 : ([0, 1] : List ℕ).count 0 = 1 := by decide

lemma count_01_1 : ([0, 1] : List ℕ).count 1 = 1 := by decide

lemma energy_Kneg_01 : energy Kneg [0, 1] 2 = -2 := by
  norm_num [energy, tTerm, meanK, clusterSum, Kneg, Finset.sum_range_succ,
    Finset.sum_range_zero, count_01_0, count_01_1, List.getD_cons_zero,
    List.getD_cons_succ]

lemma energy_Kneg_11 : energy Kneg [1, 1] 2 = 1 / 2 := by
  have hc0 : ([1, 1] : List ℕ).count 0 = 0 := by decide
  have hc1 : ([1, 1] : List ℕ).count 1 = 2 := by decide
  norm_num [energy, tTerm, meanK, clusterSum, Kneg, Finset.sum_range_succ,
    Finset.sum_range_zero, hc0, hc1, List.getD_cons_zero, List.getD_cons_succ]

lemma pointStep_Kneg_0 : hartiganPointStep Kneg 2 [0, 1] 0 = [0, 1] := by
  unfold hartiganPointStep
  rw [if_neg]
  rintro ⟨-, h2⟩
  have : ([0, 1] : List ℕ).count (([0, 1] : List ℕ).getD 0 0) = 1 := by decide
  omega

lemma pointStep_Kneg_1 : hartiganPointStep Kneg 2 [0, 1] 1 = [0, 1] := by
  unfold hartiganPointStep
  rw [if_neg]
  rintro ⟨-, h2⟩
  have : ([0, 1] : List ℕ).count (([0, 1] : List ℕ).getD 1 0) = 1 := by decide
  omega

lemma pass_Kneg : hartiganPass Kneg 2 [0, 1] = [0, 1] := by
  have hr : List.range ([0, 1] : List ℕ).length = [0, 1] := by decide
  rw [hartiganPass, hr, List.foldl_cons, pointStep_Kneg_0, List.foldl_cons,
    pointStep_Kneg_1, List.foldl_nil]

/-- C1 counterexample: on the symmetric kernel `Kneg` and the partition
`[0, 1]` with `k = 2`, a full scan accepts zero moves (both candidate
moves would empty their source cluster), yet relocating point `0` to
cluster `1` strictly increases `E` — so convergence does not give local
optimality over *all* single-point relocations, only over the
non-emptying ones. -/
theorem C1_counterexample :
    hartiganPass Kneg 2 [0, 1] = [0, 1] ∧
    (0 : ℕ) < ([0, 1] : List ℕ).length ∧ (1 : ℕ) < 2 ∧
    energy Kneg [0, 1] 2 < energy Kneg (([0, 1] : List ℕ).set 0 1) 2 := by
  refine ⟨pass_Kneg, by norm_num, by norm_num, ?_⟩
  have hset : (([0, 1] : List ℕ).set 0 1) = [1, 1] := by decide
  rw [hset, energy_Kneg_01, energy_Kneg_11]
  norm_num

/-- Witness for C1 at the zero kernel and partition `[0, 0, 1]`. -/
theorem C1_hartigan_monotone_local_opt_witness :
    hartiganPass Kzero 2 [0, 0, 1] = [0, 0, 1] ∧
    (0 : ℕ) < ([0, 0, 1] : List ℕ).length ∧ (1 : ℕ) < 2 ∧
    2 ≤ ([0, 0, 1] : List ℕ).count (([0, 0, 1] : List ℕ).getD 0 0) ∧
    energy Kzero (([0, 0, 1] : List ℕ).set 0 1) 2 ≤ energy Kzero [0, 0, 1] 2 := by
  have hpass : hartiganPass Kzero 2 [0, 0, 1] = [0, 0, 1] :=
    pass_of_zero Kzero (fun _ _ => rfl) 2 [0, 0, 1]
  exact ⟨hpass, by norm_num, by norm_num, by decide,
    (C1_hartigan_monotone_local_opt Kzero 2 [0, 0, 1]).2.2 hpass 0 1
      (by norm_num) (by norm_num) (by decide)⟩

/-- C5: if every cluster of the initial partition is non-empty, then it
stays non-empty after every single-point move attempt, after every full
scan, and after a whole Hartigan run — a move that would empty its source
cluster is rejected. -/
theorem C5_no_empty_cluster (K : ℕ → ℕ → ℚ) (k : ℕ) (z : List ℕ)
    (h : ∀ c, c < k → 1 ≤ z.count c) :
    (∀ i c, c < k → 1 ≤ (hartiganPointStep K k z i).count c) ∧
    (∀ c, c < k → 1 ≤ (hartiganPass K k z).count c) ∧
    (∀ fuel c, c < k → 1 ≤ (hartiganRun K k fuel z).count c) := by
  have hstep : ∀ (s : List ℕ), (∀ c, c < k → 1 ≤ s.count c) →
      ∀ i c, c < k → 1 ≤ (hartiganPointStep K k s i).count c := by
    intro s hs i c hc
    unfold hartiganPointStep
    split_ifs with hcond
    · by_cases hcur : s.getD i 0 = c
      · have h1 := count_le_count_set_add_one s i (bestCand K k s i) c
        rw [hcur] at hcond
        omega
      · have h1 := count_set_ge_of_getD_ne s i (bestCand K k s i) c hcur
        have h2 := hs c hc
        omega
    · exact hs c hc
  have hfold : ∀ (l : List ℕ) (s : List ℕ), (∀ c, c < k → 1 ≤ s.count c) →
      ∀ c, c < k → 1 ≤ ((l.foldl (hartiganPointStep K k) s).count c) := by
    intro l
    induction l with
    | nil => intro s hs c hc; exact hs c hc
    | cons i t ih =>
      intro s hs c hc
      rw [List.foldl_cons]
      exact ih (hartiganPointStep K k s i) (fun c' hc' => hstep s hs i c' hc') c hc
  have hpass : ∀ (s : List ℕ), (∀ c, c < k → 1 ≤ s.count c) →
      ∀ c, c < k → 1 ≤ (hartiganPass K k s).count c := by
    intro s hs
    exact hfold (List.range s.length) s hs
  have hrun : ∀ (fuel : ℕ) (s : List ℕ), (∀ c, c < k → 1 ≤ s.count c) →
      ∀ c, c < k → 1 ≤ (hartiganRun K k fuel s).count c := by
    intro fuel
    induction fuel with
    | zero => intro s hs c hc; exact hs c hc
    | succ n ih =>
      intro s hs c hc
      rw [hartiganRun]
      split_ifs with hfix
      · exact hs c hc
      · exact ih (hartiganPass K k s) (hpass s hs) c hc
  exact ⟨fun i c hc => hstep z h i c hc, fun c hc => hpass z h c hc,
    fun fuel c hc => hrun fuel z h c hc⟩

/-- Witness for C5 at the zero kernel and partition `[0, 1]`. -/
theorem C5_no_empty_cluster_witness :
    (∀ c, c < 2 → 1 ≤ ([0, 1] : List ℕ).count c) ∧
    (0 : ℕ) < 2 ∧
    1 ≤ (hartiganRun Kzero 2 3 [0, 1]).count 0 := by
  have h : ∀ c, c < 2 → 1 ≤ ([0, 1] : List ℕ).count c := by decide
  exact ⟨h, by norm_num,
    (C5_no_empty_cluster Kzero 2 [0, 1] h).2.2 3 0 (by norm_num)⟩

lemma pickBest_spec (l : List (List ℕ × ℚ)) (h : l ≠ []) :
    pickBest l ∈ l ∧ ∀ x ∈ l, x.2 ≤ (pickBest l).2 := by
  match l with
  | [] => exact absurd rfl h
  | a :: t =>
    constructor
    · exact foldl_pick_mem Prod.snd t a
    · intro x hx
      rcases List.mem_cons.mp hx with rfl | hx'
      · exact foldl_pick_ge_init Prod.snd t x
      · exact foldl_pick_ge_mem Prod.snd t a x hx'

/-- C6: with `run_times ≥ 1` the restart loop of the driver selects its answer
among the `run_times` independent run results, and no run achieves a
strictly higher final energy than the selected one. -/
theorem C6_driver_keeps_best_run (K : ℕ → ℕ → ℚ) (k : ℕ)
    (opt : List ℕ → List ℕ) (init : ℕ → List ℕ) (run_times : ℕ)
    (h : 1 ≤ run_times) :
    (∃ r, r < run_times ∧
      clusterRuns K k opt init run_times = runResult K k opt init r) ∧
    (∀ r, r < run_times →
      (runResult K k opt init r).2 ≤ (clusterRuns K k opt init run_times).2) := by
  have hne : (List.range run_times).map (runResult K k opt init) ≠ [] := by
    simp only [ne_eq, List.map_eq_nil_iff, List.range_eq_nil]
    omega
  obtain ⟨hmem, hbd⟩ := pickBest_spec _ hne
  constructor
  · rw [List.mem_map] at hmem
    obtain ⟨r, hr, hEq⟩ := hmem
    exact ⟨r, List.mem_range.mp hr, hEq.symm⟩
  · intro r hr
    exact hbd _ (List.mem_map_of_mem _ (List.mem_range.mpr hr))

/-- Witness for C6 at a single restart of the identity optimizer. -/
theorem C6_driver_keeps_best_run_witness :
    1 ≤ 1 ∧
    ((∃ r, r < 1 ∧ clusterRuns Kzero 2 id (fun _ => [0, 1]) 1
        = runResult Kzero 2 id (fun _ => [0, 1]) r) ∧
     (∀ r, r < 1 → (runResult Kzero 2 id (fun _ => [0, 1]) r).2
        ≤ (clusterRuns Kzero 2 id (fun _ => [0, 1]) 1).2)) :=
  ⟨le_refl 1,
   C6_driver_keeps_best_run Kzero 2 id (fun _ => [0, 1]) 1 (le_refl 1)⟩

/-- C2 counterexample: on the empty point set with `k = 5`, the condition
`k < 2 ∨ k > n` holds, yet the driver fails with `EmptyInput`, not with
`InvalidK` — the claimed two if-and-only-if conditions overlap on empty
input and cannot both hold. -/
theorem C2_counterexample :
    ¬ ((cluster [] 5 (fun _ _ => 0) (fun _ _ => []) id 1 0
        = Except.error ClusterError.invalidK)
      ↔ (5 < 2 ∨ ([] : List (List ℚ)).length < 5)) := by
  intro h
  have h2 : cluster [] 5 (fun _ _ => 0) (fun _ _ => []) id 1 0
      = Except.error ClusterError.invalidK := h.mpr (by norm_num)
  have h1 : cluster [] 5 (fun _ _ => 0) (fun _ _ => []) id 1 0
      = Except.error ClusterError.emptyInput := by
    simp [cluster]
  rw [h1] at h2
  exact absurd (Except.error.inj h2) (by simp)

/-- C2 (amended): the driver fails with `EmptyInput` iff the point set is
empty; it fails with `InvalidK` iff the point set is non-empty and
`k < 2 ∨ k > n`; and no error other than `InvalidK`, `EmptyInput` and
`DimensionMismatch` is ever surfaced to the caller. -/
theorem C2_driver_failure_conditions (points : List (List ℚ)) (k : ℕ)
    (φ : List ℚ → List ℚ → ℚ) (init : ℕ → ℕ → List ℕ)
    (opt : List ℕ → List ℕ) (run_times seed : ℕ) :
    (cluster points k φ init opt run_times seed
        = Except.error ClusterError.emptyInput ↔ points = []) ∧
    (cluster points k φ init opt run_times seed
        = Except.error ClusterError.invalidK
      ↔ (points ≠ [] ∧ (k < 2 ∨ points.length < k))) ∧
    (∀ e, cluster points k φ init opt run_times seed = Except.error e →
      e = ClusterError.invalidK ∨ e = ClusterError.emptyInput
        ∨ e = ClusterError.dimensionMismatch) := by
  unfold cluster
  split_ifs with h1 h2 h3
  · have hp : points = [] := List.length_eq_zero.mp h1
    refine ⟨by simp [hp], by simp [hp], ?_⟩
    intro e he
    exact Or.inr (Or.inl (Except.error.inj he).symm)
  · have hp : points ≠ [] := fun hp => h1 (by simp [hp])
    refine ⟨by simp [hp], by simp [hp, h2], ?_⟩
    intro e he
    exact Or.inl (Except.error.inj he).symm
  · have hp : points ≠ [] := fun hp => h1 (by simp [hp])
    refine ⟨by simp [hp], by simp [h2], ?_⟩
    intro e he
    simp at he
  · have hp : points ≠ [] := fun hp => h1 (by simp [hp])
    refine ⟨by simp [hp], by simp [h2], ?_⟩
    intro e he
    exact Or.inr (Or.inr (Except.error.inj he).symm)

/-- Witness for C2 (amended) at the empty point set. -/
theorem C2_driver_failure_conditions_witness :
    (([] : List (List ℚ)) = []) ∧
    cluster [] 2 (fun _ _ => 0) (fun _ _ => []) id 1 0
      = Except.error ClusterError.emptyInput :=
  ⟨rfl, (C2_driver_failure_conditions [] 2 (fun _ _ => 0) (fun _ _ => []) id
    1 0).1.mpr rfl⟩

/-- C7: the driver is a pure function of its arguments and the explicit
seed (spec §9 replaces the process-wide RNG state by a seeded
generator threaded through initialization), so two executions on the same
input and seed return the identical labeling and the identical energy
value. -/
theorem C7_driver_deterministic (points : List (List ℚ)) (k : ℕ)
    (φ : List ℚ → List ℚ → ℚ) (init : ℕ → ℕ → List ℕ)
    (opt : List ℕ → List ℕ) (run_times seed : ℕ) (res1 res2 : List ℕ × ℚ)
    (h1 : cluster points k φ init opt run_times seed = Except.ok res1)
    (h2 : cluster points k φ init opt run_times seed = Except.ok res2) :
    res1.1 = res2.1 ∧ res1.2 = res2.2 := by
  rw [h1] at h2
  have h3 := Except.ok.inj h2
  exact ⟨congrArg Prod.fst h3, congrArg Prod.snd h3⟩

lemma cluster_two_points :
    cluster [[0], [1]] 2 (fun _ _ => 0) (fun _ _ => [0, 1]) id 1 0
      = Except.ok ([0, 1], 0) := by
  have hE : energy (fun i j =>
      (fun _ _ => (0 : ℚ)) (([[0], [1]] : List (List ℚ)).getD i [])
        (([[0], [1]] : List (List ℚ)).getD j [])) [0, 1] 2 = 0 :=
    energy_of_zero _ (fun _ _ => rfl) _ _
  simp [cluster, clusterRuns, runResult, pickBest, dims_consistent,
    List.range_succ, hE]

/-- Witness for C7 at a concrete two-point call. -/
theorem C7_driver_deterministic_witness :
    cluster [[0], [1]] 2 (fun _ _ => 0) (fun _ _ => [0, 1]) id 1 0
      = Except.ok ([0, 1], 0) ∧
    (([0, 1] : List ℕ), (0 : ℚ)).1 = (([0, 1] : List ℕ), (0 : ℚ)).1 ∧
    (([0, 1] : List ℕ), (0 : ℚ)).2 = (([0, 1] : List ℕ), (0 : ℚ)).2 :=
  ⟨cluster_two_points,
   C7_driver_deterministic [[0], [1]] 2 (fun _ _ => 0) (fun _ _ => [0, 1]) id
     1 0 ([0, 1], 0) ([0, 1], 0) cluster_two_points cluster_two_points⟩

lemma trial_error_bounds (p : ℚ) (f : ℚ → ℚ) (x1 x2 : List ℚ)
    (hp0 : 0 ≤ p) (hp1 : p ≤ 1) (h1 : x1 ≠ []) (h2 : x2 ≠ []) :
    0 ≤ trial_error p f x1 x2 ∧ trial_error p f x1 x2 ≤ 1 := by
  have hn1 : (0 : ℚ) < ((x1.length : ℕ) : ℚ) := by
    exact_mod_cast List.length_pos.mpr h1
  have hn2 : (0 : ℚ) < ((x2.length : ℕ) : ℚ) := by
    exact_mod_cast List.length_pos.mpr h2
  have hq0 : 0 ≤ 1 - p := by linarith
  have he1 : ((x1.countP fun x => decide (f x ≤ 0) : ℕ) : ℚ)
      ≤ ((x1.length : ℕ) : ℚ) := by
    exact_mod_cast List.countP_le_length _
  have he2 : ((x2.countP fun x => decide (0 ≤ f x) : ℕ) : ℚ)
      ≤ ((x2.length : ℕ) : ℚ) := by
    exact_mod_cast List.countP_le_length _
  have hc1 : (0 : ℚ) ≤ ((x1.countP fun x => decide (f x ≤ 0) : ℕ) : ℚ) := by
    exact_mod_cast Nat.zero_le _
  have hc2 : (0 : ℚ) ≤ ((x2.countP fun x => decide (0 ≤ f x) : ℕ) : ℚ) := by
    exact_mod_cast Nat.zero_le _
  constructor
  · have t1 : 0 ≤ p * ((x1.countP fun x => decide (f x ≤ 0) : ℕ) : ℚ)
        / ((x1.length : ℕ) : ℚ) :=
      div_nonneg (mul_nonneg hp0 hc1) (le_of_lt hn1)
    have t2 : 0 ≤ (1 - p) * ((x2.countP fun x => decide (0 ≤ f x) : ℕ) : ℚ)
        / ((x2.length : ℕ) : ℚ) :=
      div_nonneg (mul_nonneg hq0 hc2) (le_of_lt hn2)
    unfold trial_error
    linarith
  · have t1 : p * ((x1.countP fun x => decide (f x ≤ 0) : ℕ) : ℚ)
        / ((x1.length : ℕ) : ℚ) ≤ p := by
      rw [div_le_iff₀ hn1]
      exact mul_le_mul_of_nonneg_left he1 hp0
    have t2 : (1 - p) * ((x2.countP fun x => decide (0 ≤ f x) : ℕ) : ℚ)
        / ((x2.length : ℕ) : ℚ) ≤ 1 - p := by
      rw [div_le_iff₀ hn2]
      exact mul_le_mul_of_nonneg_left he2 hq0
    unfold trial_error
    linarith

/-- C8: whenever `0 ≤ p ≤ 1`, at least one trial happens, and every trial
has non-empty class samples (in the code: every multinomial draw yields
`n1 ≥ 1` and `n2 ≥ 1`), the accuracy returned by
`bayes_univariate_normal` lies in `[0, 1]`. -/
theorem C8_bayes_accuracy_in_unit_interval (p : ℚ) (f : ℚ → ℚ)
    (trials : List (List ℚ × List ℚ)) (hp0 : 0 ≤ p) (hp1 : p ≤ 1)
    (hne : trials ≠ []) (hnn : ∀ t ∈ trials, t.1 ≠ [] ∧ t.2 ≠ []) :
    0 ≤ bayes_univariate_normal p f trials
      ∧ bayes_univariate_normal p f trials ≤ 1 := by
  have hbound : ∀ x ∈ (trials.map fun t => trial_error p f t.1 t.2),
      0 ≤ x ∧ x ≤ 1 := by
    intro x hx
    rw [List.mem_map] at hx
    obtain ⟨t, ht, rfl⟩ := hx
    exact trial_error_bounds p f t.1 t.2 hp0 hp1 (hnn t ht).1 (hnn t ht).2
  have hlen : (0 : ℚ) < ((trials.length : ℕ) : ℚ) := by
    exact_mod_cast List.length_pos.mpr hne
  have hsum0 : 0 ≤ (trials.map fun t => trial_error p f t.1 t.2).sum :=
    List.sum_nonneg fun x hx => (hbound x hx).1
  have hsum1 : (trials.map fun t => trial_error p f t.1 t.2).sum
      ≤ ((trials.length : ℕ) : ℚ) := by
    have h := List.sum_le_card_nsmul (trials.map fun t => trial_error p f t.1 t.2)
      1 (fun x hx => (hbound x hx).2)
    rw [List.length_map] at h
    calc (trials.map fun t => trial_error p f t.1 t.2).sum
        ≤ trials.length • (1 : ℚ) := h
      _ = ((trials.length : ℕ) : ℚ) := by rw [nsmul_eq_mul, mul_one]
  have hmean0 : 0 ≤ (trials.map fun t => trial_error p f t.1 t.2).sum
      / ((trials.length : ℕ) : ℚ) := div_nonneg hsum0 (le_of_lt hlen)
  have hmean1 : (trials.map fun t => trial_error p f t.1 t.2).sum
      / ((trials.length : ℕ) : ℚ) ≤ 1 := by
    rw [div_le_one hlen]
    exact hsum1
  unfold bayes_univariate_normal
  constructor <;> linarith

/-- Witness for C8 at one trial with one sample point per class. -/
theorem C8_bayes_accuracy_in_unit_interval_witness :
    (0 : ℚ) ≤ 1 / 2 ∧ (1 / 2 : ℚ) ≤ 1 ∧
    ([([1], [0])] : List (List ℚ × List ℚ)) ≠ [] ∧
    (0 ≤ bayes_univariate_normal (1 / 2) (fun x => x) [([1], [0])]
      ∧ bayes_univariate_normal (1 / 2) (fun x => x) [([1], [0])] ≤ 1) := by
  refine ⟨by norm_num, by norm_num, by simp, ?_⟩
  exact C8_bayes_accuracy_in_unit_interval (1 / 2) (fun x => x) [([1], [0])]
    (by norm_num) (by norm_num) (by simp)
    (by intro t ht; simp at ht; simp [ht])

lemma lookup_ke : lookup_name "ke" = Except.error (PyError.nameError "ke") := by
  rw [lookup_name, if_neg]
  decide

lemma gauss_body_err (sample : ℕ → ℕ → List (List ℚ) × List ℕ)
    (results : ℕ → ℕ → List ℚ) (st : List (List ℚ) × ℕ) (p i : ℕ) :
    (do
      let _ := sample p i
      let _ ← lookup_name "ke"
      pure (st.1.set st.2 ((p : ℚ) :: results p i), st.2 + 1)
      : Except PyError (List (List ℚ) × ℕ))
      = Except.error (PyError.nameError "ke") := by
  rw [show (do
      let _ := sample p i
      let _ ← lookup_name "ke"
      pure (st.1.set st.2 ((p : ℚ) :: results p i), st.2 + 1)
      : Except PyError (List (List ℚ) × ℕ))
    = lookup_name "ke" >>= fun _ =>
        pure (st.1.set st.2 ((p : ℚ) :: results p i), st.2 + 1) from rfl,
    lookup_ke]
  rfl

/-- C9: with a non-empty `num_points` range and `num_experiments ≥ 1`,
`gauss_dimensions_pi` fails with `NameError` on the unbound name `ke`
before storing any clustering result, for every external sampler and
every external clustering score — it never returns a table. -/
theorem C9_gauss_dimensions_pi_name_error
    (sample : ℕ → ℕ → List (List ℚ) × List ℕ) (results : ℕ → ℕ → List ℚ)
    (num_points : List ℕ) (num_experiments : ℕ) (h1 : num_points ≠ [])
    (h2 : 1 ≤ num_experiments) :
    gauss_dimensions_pi sample results num_points num_experiments
      = Except.error (PyError.nameError "ke") := by
  obtain ⟨q, rest, rfl⟩ : ∃ q rest, num_points = q :: rest := by
    match num_points, h1 with
    | q :: rest, _ => exact ⟨q, rest, rfl⟩
  obtain ⟨m, rfl⟩ : ∃ m, num_experiments = m + 1 :=
    ⟨num_experiments - 1, by omega⟩
  unfold gauss_dimensions_pi
  rw [List.range_succ_eq_map]
  rfl

/-- Witness for C9 at the smallest in-range call. -/
theorem C9_gauss_dimensions_pi_name_error_witness :
    ([0] : List ℕ) ≠ [] ∧ 1 ≤ 1 ∧
    gauss_dimensions_pi (fun _ _ => ([], [])) (fun _ _ => []) [0] 1
      = Except.error (PyError.nameError "ke") :=
  ⟨by simp, le_refl 1,
   C9_gauss_dimensions_pi_name_error (fun _ _ => ([], [])) (fun _ _ => [])
     [0] 1 (by simp) (le_refl 1)⟩

/-- C10: `get_sample` raises `ValueError` exactly when `distr` is neither
`normal` nor `lognormal`; on those two strings it returns a
`(sample, labels)` pair and never raises. -/
theorem C10_get_sample_value_error_iff (distr : String)
    (ns ls : List ℚ × List ℕ) :
    ((∃ e, get_sample distr ns ls = Except.error e)
      ↔ (distr ≠ "normal" ∧ distr ≠ "lognormal")) ∧
    ((distr = "normal" ∨ distr = "lognormal") →
      ∃ pair, get_sample distr ns ls = Except.ok pair) := by
  unfold get_sample
  split_ifs with h1 h2
  · exact ⟨by simp [h1], fun _ => ⟨ns, rfl⟩⟩
  · exact ⟨by simp [h2], fun _ => ⟨ls, rfl⟩⟩
  · refine ⟨by simp [h1, h2], ?_⟩
    intro h
    rcases h with h | h
    · exact absurd h h1
    · exact absurd h h2

/-- Witness for C10 at the unknown distribution string `"gamma"`. -/
theorem C10_get_sample_value_error_iff_witness :
    ("gamma" ≠ "normal" ∧ "gamma" ≠ "lognormal") ∧
    (∃ e, get_sample "gamma" ([], []) ([], []) = Except.error e) :=
  ⟨by decide,
   (C10_get_sample_value_error_iff "gamma" ([], []) ([], [])).1.mpr (by decide)⟩

end EnergyClustering
